import Mathlib

/-
  Verification of the parsephp package (PHP parse_str semantics in Go).

  Shallow embedding of the reference implementation: Go's dynamically
  typed values (string | []any | map[string]any, with nil as the hole
  marker inside slices) become the inductive type GoVal; Go maps become
  association lists without duplicate keys, with lookup order irrelevant
  for every read the code performs (mapGet and the numeric-key maximum).
  Go strings are modelled as Lean strings; the byte-level scans of the
  source coincide with the character-level scans here on the ASCII
  structural characters they look for. Go ints are idealised as Nat/Int
  (the algorithm only ever produces non-negative indices).
-/

namespace ParsePhp

/-- Dynamic Go value: nil (hole), string leaf, slice, or string-keyed map. -/
inductive GoVal : Type where
  | vnil : GoVal
  | vstr : String → GoVal
  | vslice : List GoVal → GoVal
  | vmap : List (String × GoVal) → GoVal

/-- Association-list view of Go's map[string]any. -/
abbrev GoMap := List (String × GoVal)

/-- Lookup in a Go map (first entry with the key; keys are unique). -/
def mapGet (m : GoMap) (k : String) : Option GoVal :=
  match m with
  | [] => none
  | (k', v) :: rest => if k' = k then some v else mapGet rest k

/-- Map assignment m[k] = v: replace in place, or add the entry if absent. -/
def mapSet (m : GoMap) (k : String) (v : GoVal) : GoMap :=
  match m with
  | [] => [(k, v)]
  | (k', v') :: rest => if k' = k then (k, v) :: rest else (k', v') :: mapSet rest k v

/-- isNumeric from the source: non-empty and all ASCII digits. -/
def isNumeric (s : String) : Bool :=
  !s.isEmpty && s.data.all (fun c => '0' ≤ c && c ≤ '9')

/-- Value of an ASCII digit character. -/
def digitVal (c : Char) : Nat := c.toNat - '0'.toNat

/-- strconv.Atoi on an all-digit token (idealised to Nat, no 64-bit bound). -/
def strToNat (s : String) : Nat :=
  s.data.foldl (fun a c => a * 10 + digitVal c) 0

/-- Decimal digit character for d ≤ 9. -/
def digitToChar (d : Nat) : Char :=
  match d with
  | 0 => '0' | 1 => '1' | 2 => '2' | 3 => '3' | 4 => '4'
  | 5 => '5' | 6 => '6' | 7 => '7' | 8 => '8' | _ => '9'

/-- Digit accumulation loop of strconv.Itoa; fuel bounds the digit count. -/
def itoaAux : Nat → Nat → List Char → List Char
  | 0, _, acc => acc
  | fuel+1, n, acc =>
    if n < 10 then digitToChar n :: acc
    else itoaAux fuel (n / 10) (digitToChar (n % 10) :: acc)

/-- strconv.Itoa for the non-negative ints the algorithm produces. -/
def itoa (n : Nat) : String := String.mk (itoaAux (n + 1) n [])

/-- Largest value of Go's 64-bit int (the platform int of the source). -/
def maxGoInt : Nat := 9223372036854775807

/-- The guard of nextAutoIndex's loop: the key is all digits and
    strconv.Atoi succeeds on it, which for a digit-only string means its
    value fits in Go's 64-bit int (err == nil in the source). -/
def inRangeNumeric (s : String) : Bool := isNumeric s && strToNat s ≤ maxGoInt

/-- Accumulating maximum over numeric keys, as in nextAutoIndex's loop:
    keys failing the isNumeric test or the Atoi range check are skipped.
    Go iterates the map in unspecified order; a maximum is order
    independent, so the association-list order is a sound stand-in. -/
def autoFold : GoMap → Int → Int
  | [], a => a
  | (k, _) :: rest, a =>
    autoFold rest (if inRangeNumeric k then max a (strToNat k : Int) else a)

/-- nextAutoIndex: 1 + max numeric key (max starts at -1, so 0 if none). -/
def nextAutoIndex (m : GoMap) : Nat := (autoFold m (-1) + 1).toNat

/-- isHex from the source. -/
def isHex (c : Char) : Bool :=
  ('0' ≤ c && c ≤ '9') || ('a' ≤ c && c ≤ 'f') || ('A' ≤ c && c ≤ 'F')

/-- Numeric value of a hex digit. -/
def hexVal (c : Char) : Nat :=
  if '0' ≤ c && c ≤ '9' then c.toNat - '0'.toNat
  else if 'a' ≤ c && c ≤ 'f' then c.toNat - 'a'.toNat + 10
  else c.toNat - 'A'.toNat + 10

/-- lenientDecode's loop: '+' to space, valid %XX decoded, invalid '%'
    kept literally with the following characters scanned normally. Fuel
    bounds the iteration count; each step consumes at least one input
    character, so any fuel above the input length is exact. -/
def lenientLoop : Nat → List Char → List Char
  | 0, _ => []
  | _, [] => []
  | fuel+1, c :: rest =>
    if c = '+' then ' ' :: lenientLoop fuel rest
    else if c = '%' then
      match rest with
      | c1 :: c2 :: rest2 =>
        if isHex c1 && isHex c2 then
          Char.ofNat (16 * hexVal c1 + hexVal c2) :: lenientLoop fuel rest2
        else '%' :: lenientLoop fuel rest
      | _ => '%' :: lenientLoop fuel rest
    else c :: lenientLoop fuel rest

/-- lenientDecode's loop at sufficient fuel. -/
def lenientChars (l : List Char) : List Char := lenientLoop (l.length + 1) l

/-- Whether every '%' is followed by two hex digits; url.QueryUnescape
    fails exactly on the strings where this is false. -/
def validPercent : List Char → Bool
  | [] => true
  | c :: rest =>
    if c = '%' then
      match rest with
      | c1 :: c2 :: rest2 => isHex c1 && isHex c2 && validPercent rest2
      | _ => false
    else validPercent rest

/-- decode(s, strict): model of the source's decode. net/url.QueryUnescape
    is modelled as failing iff validPercent is false, and on success its
    output coincides with the lenient loop (both decode %XX and '+').
    In lenient mode the source falls back to lenientDecode on failure, so
    the lenient result is always the lenient loop's output. -/
def decode (s : String) (strict : Bool) : Option String :=
  if strict then
    if validPercent s.data then some (String.mk (lenientChars s.data)) else none
  else some (String.mk (lenientChars s.data))

/-- ASCII fragment of Go's unicode.IsSpace used by strings.TrimSpace. -/
def isGoSpace (c : Char) : Bool :=
  c = ' ' || c = '\t' || c = '\n' || c = '\x0b' || c = '\x0c' || c = '\r'

/-- strings.TrimSpace (ASCII fragment). -/
def goTrim (s : String) : String :=
  String.mk (((s.data.dropWhile isGoSpace).reverse.dropWhile isGoSpace).reverse)

/-- Key/value split on the first '=': text before and after it. -/
def splitEq : List Char → Option (List Char × List Char)
  | [] => none
  | c :: rest =>
    if c = '=' then some ([], rest)
    else match splitEq rest with
      | none => none
      | some (k, v) => some (c :: k, v)

/-- splitPair: split a raw pair at the first '='; no '=' means empty value. -/
def splitPair (s : String) : String × String :=
  match splitEq s.data with
  | some (k, v) => (String.mk k, String.mk v)
  | none => (s, "")

/-- Builder loop of splitBySeparators: cut at every separator rune,
    preserving empty segments, with a final segment at the end. -/
def splitLoop (seps : List Char) : List Char → List Char → List String
  | [], acc => [String.mk acc]
  | c :: rest, acc =>
    if c ∈ seps then String.mk acc :: splitLoop seps rest []
    else splitLoop seps rest (acc ++ [c])

/-- splitBySeparators from the source; the empty string yields no pairs. -/
def splitBySeparators (s : String) (seps : List Char) : List String :=
  if s = "" then [] else splitLoop seps s.data []

/-- Optional leading '?' stripped by ParseStrWithOptions. -/
def stripQuestion : List Char → List Char
  | '?' :: rest => rest
  | l => l

/-- Consume the run of ']' immediately after a matched bracket pair. -/
def dropCloses : List Char → List Char
  | [] => []
  | c :: rest => if c = ']' then dropCloses rest else c :: rest

/-- Scan for the next ']' (tokenizeKey's inner loop): on success, the
    characters before it and the characters after it. -/
def findClose : List Char → Option (List Char × List Char)
  | [] => none
  | c :: rest =>
    if c = ']' then some ([], rest)
    else match findClose rest with
      | none => none
      | some (tk, rest') => some (c :: tk, rest')

/-- Outer scan of tokenizeKey. Each step consumes at least one input
    character, so any fuel larger than the input length is exact; the
    zero-fuel branch is unreachable at the call below. -/
def tokenizeLoop : Nat → List Char → List Char → List String → List Char × List String
  | 0, _, base, toks => (base, toks)
  | fuel+1, s, base, toks =>
    match s with
    | [] => (base, toks)
    | c :: rest =>
      if c = '[' then
        match findClose rest with
        | some (tk, rest') =>
          tokenizeLoop fuel (dropCloses rest') base (toks ++ [String.mk tk])
        | none => tokenizeLoop fuel rest (base ++ ['_']) toks
      else tokenizeLoop fuel rest (base ++ [c]) toks

/-- tokenizeKey from the source: base followed by the bracket tokens. -/
def tokenizeKey (s : String) : List String :=
  if s = "" then []
  else
    let r := tokenizeLoop (s.data.length + 1) s.data [] []
    String.mk r.1 :: r.2

/-- Fresh child container chosen by the next token, as in the source:
    empty or numeric next token gives a slice, otherwise a map. -/
def containerFor (nextTok : String) : GoVal :=
  if nextTok = "" || isNumeric nextTok then .vslice [] else .vmap []

/-- ensureSlice: keep a slice, otherwise (nil or any other kind) fresh. -/
def ensureSlice : GoVal → List GoVal
  | .vslice sl => sl
  | _ => []

/-- Slice-to-map conversion loop of ensureMap: every element, holes
    included, keyed by its index's decimal string. -/
def enumMap : Nat → List GoVal → GoMap
  | _, [] => []
  | i, x :: xs => (itoa i, x) :: enumMap (i + 1) xs

/-- ensureMap from the source: keep a map, convert a slice index-wise,
    otherwise (nil, string, ...) start a fresh empty map. -/
def ensureMap : GoVal → GoMap
  | .vmap m => m
  | .vslice xs => enumMap 0 xs
  | _ => []

/-- growSlice: append nil holes until the length exceeds idx (the
    negative-index guard of the source is vacuous over Nat). -/
def growSlice (sl : List GoVal) (idx : Nat) : List GoVal :=
  sl ++ List.replicate (idx + 1 - sl.length) .vnil

/-- Child selection when descending through an existing entry: keep a
    slice or map child, replace nil/string/other with a fresh container. -/
def childFor (child : Option GoVal) (nextTok : String) : GoVal :=
  match child with
  | some (.vslice xs) => .vslice xs
  | some (.vmap m) => .vmap m
  | _ => containerFor nextTok

/-- Token-walking loop of insert. The source threads writer closures that
    patch the parent slot after each step; since every pair touches one
    top-down path, that is the same as returning the updated node. -/
def walk (value : String) : List String → GoVal → GoVal
  | [], cur => cur
  | tok :: rest, cur =>
    let nextTok := rest.headD ""
    if tok = "" then
      match cur with
      | .vslice sl =>
        match rest with
        | [] => .vslice (sl ++ [.vstr value])
        | _ => .vslice (sl ++ [walk value rest (containerFor nextTok)])
      | .vmap mp =>
        let key := itoa (nextAutoIndex mp)
        match rest with
        | [] => .vmap (mapSet mp key (.vstr value))
        | _ => .vmap (mapSet mp key (walk value rest (containerFor nextTok)))
      | other =>
        let sl := ensureSlice other
        match rest with
        | [] => .vslice (sl ++ [.vstr value])
        | _ => .vslice (sl ++ [walk value rest (containerFor nextTok)])
    else if isNumeric tok then
      match cur with
      | .vmap mp =>
        match rest with
        | [] => .vmap (mapSet mp tok (.vstr value))
        | _ => .vmap (mapSet mp tok (walk value rest (childFor (mapGet mp tok) nextTok)))
      | other =>
        let sl := growSlice (ensureSlice other) (strToNat tok)
        match rest with
        | [] => .vslice (sl.set (strToNat tok) (.vstr value))
        | _ =>
          .vslice (sl.set (strToNat tok)
            (walk value rest (childFor sl[strToNat tok]? nextTok)))
    else
      let mp := ensureMap cur
      match rest with
      | [] => .vmap (mapSet mp tok (.vstr value))
      | _ => .vmap (mapSet mp tok (walk value rest (childFor (mapGet mp tok) nextTok)))

/-- insert from the source: resolve the base container (creating it, or
    converting a scalar per the first token), then walk the tokens. -/
def insert (root : GoMap) (base : String) (tokens : List String) (value : String) : GoMap :=
  match tokens with
  | [] => mapSet root base (.vstr value)
  | first :: _ =>
    let current : GoVal :=
      match mapGet root base with
      | none => if first = "" || isNumeric first then .vslice [] else .vmap []
      | some (.vstr c) =>
        if first = "" || isNumeric first then .vslice [.vstr c] else .vmap []
      | some (.vslice xs) => .vslice xs
      | some (.vmap m) => .vmap m
      | some .vnil => if first = "" || isNumeric first then .vslice [] else .vmap []
    mapSet root base (walk value tokens current)

/-- Decode/value error reported by strict decoding; the constructor
    records whether the key or the value failed. -/
inductive DecodeError : Type where
  | keyError : DecodeError
  | valueError : DecodeError

/-- Per-pair processing after decoding: trim, drop empty keys, tokenize,
    then plain assignment or insert. -/
def applyDecoded (root : GoMap) (dk dv : String) : GoMap :=
  let dk' := goTrim dk
  let dv' := goTrim dv
  if dk' = "" then root
  else
    match tokenizeKey dk' with
    | [] => root
    | base :: tokens =>
      if tokens = [] then mapSet root base (.vstr dv')
      else insert root base tokens dv'

/-- Per-raw-pair processing: skip empty pairs, split at '=', decode both
    parts (key error checked before value error, as in the source). -/
def applyPair (root : GoMap) (raw : String) (strict : Bool) : Except DecodeError GoMap :=
  if raw = "" then .ok root
  else
    let p := splitPair raw
    match decode p.1 strict, decode p.2 strict with
    | none, _ => .error .keyError
    | some _, none => .error .valueError
    | some dk, some dv => .ok (applyDecoded root dk dv)

/-- The pair loop of ParseStrWithOptions; a decode error aborts the parse. -/
def runPairs (root : GoMap) (pairs : List String) (strict : Bool) : Except DecodeError GoMap :=
  match pairs with
  | [] => .ok root
  | p :: rest =>
    match applyPair root p strict with
    | .error e => .error e
    | .ok root' => runPairs root' rest strict

/-- Options from the source (separator runes and strict-decode flag). -/
structure Options : Type where
  Separators : List Char
  StrictDecode : Bool

/-- DefaultOptions: separators '&' and ';', lenient decoding. -/
def DefaultOptions : Options := ⟨['&', ';'], false⟩

/-- ParseStrWithOptions from the source. -/
def ParseStrWithOptions (query : String) (opts : Options) : Except DecodeError GoMap :=
  let seps := if opts.Separators = [] then DefaultOptions.Separators else opts.Separators
  let q := String.mk (stripQuestion query.data)
  runPairs [] (splitBySeparators q seps) opts.StrictDecode

/-- ParseStr: parse with DefaultOptions. -/
def ParseStr (query : String) : Except DecodeError GoMap :=
  ParseStrWithOptions query DefaultOptions

/-! Decimal strings: the Itoa loop round-trips through strToNat, hence
    distinct indices get distinct map keys. -/

theorem itoaAux_acc (fuel : Nat) : ∀ (n : Nat) (acc : List Char),
    itoaAux fuel n acc = itoaAux fuel n [] ++ acc := by
  induction fuel with
  | zero => intro n acc; simp [itoaAux]
  | succ f ih =>
    intro n acc
    by_cases h : n < 10
    · simp [itoaAux, h]
    · simp only [itoaAux, if_neg h]
      rw [ih (n / 10) (digitToChar (n % 10) :: acc), ih (n / 10) [digitToChar (n % 10)]]
      simp

theorem digitVal_digitToChar (d : Nat) (h : d < 10) : digitVal (digitToChar d) = d := by
  interval_cases d <;> rfl

theorem strToNat_itoa (n : Nat) : strToNat (itoa n) = n := by
  suffices h : ∀ (fuel m : Nat), m < fuel →
      List.foldl (fun a c => a * 10 + digitVal c) 0 (itoaAux fuel m []) = m by
    simpa [strToNat, itoa] using h (n + 1) n (by omega)
  intro fuel
  induction fuel with
  | zero => omega
  | succ f ih =>
    intro m hm
    by_cases h : m < 10
    · simp only [itoaAux, if_pos h, List.foldl]
      interval_cases m <;> rfl
    · simp only [itoaAux, if_neg h]
      rw [itoaAux_acc, List.foldl_append]
      have hdiv : m / 10 < m := Nat.div_lt_self (by omega) (by omega)
      rw [ih (m / 10) (by omega)]
      simp only [List.foldl]
      rw [digitVal_digitToChar (m % 10) (Nat.mod_lt _ (by omega))]
      omega

theorem itoa_injective {a b : Nat} (h : itoa a = itoa b) : a = b := by
  have := congrArg strToNat h
  rwa [strToNat_itoa, strToNat_itoa] at this

/-! Map operations. -/

theorem mapGet_mapSet_self (m : GoMap) (k : String) (v : GoVal) :
    mapGet (mapSet m k v) k = some v := by
  induction m with
  | nil => simp [mapSet, mapGet]
  | cons p rest ih =>
    by_cases h : p.1 = k
    · simp [mapSet, mapGet, h]
    · simp [mapSet, mapGet, h, ih]

theorem mapSet_mapSet_self (m : GoMap) (k : String) (v1 v2 : GoVal) :
    mapSet (mapSet m k v1) k v2 = mapSet m k v2 := by
  induction m with
  | nil => simp [mapSet]
  | cons p rest ih =>
    by_cases h : p.1 = k
    · simp [mapSet, h]
    · simp [mapSet, h, ih]

theorem mapGet_enumMap (xs : List GoVal) : ∀ (n i : Nat),
    mapGet (enumMap n xs) (itoa i) = if n ≤ i then xs[i - n]? else none := by
  induction xs with
  | nil =>
    intro n i
    simp only [enumMap, mapGet]
    split <;> simp
  | cons x xs ih =>
    intro n i
    simp only [enumMap, mapGet]
    by_cases h : n = i
    · subst h
      simp [Nat.sub_self]
    · have hne : itoa n ≠ itoa i := fun hc => h (itoa_injective hc)
      rw [if_neg hne, ih (n + 1) i]
      by_cases hle : n + 1 ≤ i
      · rw [if_pos hle, if_pos (by omega)]
        have hsub : i - n = (i - (n + 1)) + 1 := by omega
        rw [hsub]
        simp
      · rw [if_neg hle, if_neg (by omega)]

/-! The numeric-key maximum behind nextAutoIndex. -/

theorem findClose_eq_none {l : List Char} (h : ']' ∉ l) : findClose l = none := by
  induction l with
  | nil => rfl
  | cons c rest ih =>
    rw [List.mem_cons] at h
    push_neg at h
    obtain ⟨h1, h2⟩ := h
    have hc : ¬ c = ']' := fun he => h1 he.symm
    simp only [findClose, if_neg hc, ih h2]

theorem findClose_append {tk : List Char} (rest : List Char) (h : ']' ∉ tk) :
    findClose (tk ++ ']' :: rest) = some (tk, rest) := by
  induction tk with
  | nil => simp [findClose]
  | cons c tk ih =>
    rw [List.mem_cons] at h
    push_neg at h
    obtain ⟨h1, h2⟩ := h
    have hc : ¬ c = ']' := fun he => h1 he.symm
    simp only [List.cons_append, findClose, if_neg hc, List.append_eq, ih h2]

theorem findClose_length : ∀ {l tk : List Char} {rest : List Char},
    findClose l = some (tk, rest) → rest.length < l.length := by
  intro l
  induction l with
  | nil => intro tk rest h; simp [findClose] at h
  | cons c l ih =>
    intro tk rest h
    simp only [findClose] at h
    by_cases hc : c = ']'
    · rw [if_pos hc] at h
      cases h
      simp
    · rw [if_neg hc] at h
      cases hfc : findClose l with
      | none => rw [hfc] at h; cases h
      | some pr =>
        rw [hfc] at h
        cases h
        exact Nat.lt_trans (ih hfc) (by simp)

theorem dropCloses_length : ∀ (l : List Char), (dropCloses l).length ≤ l.length := by
  intro l
  induction l with
  | nil => simp [dropCloses]
  | cons c rest ih =>
    simp only [dropCloses]
    split
    · exact le_trans ih (by simp)
    · simp

theorem dropCloses_replicate_append {rest : List Char} (m : Nat)
    (h : rest.head? ≠ some ']') :
    dropCloses (List.replicate m ']' ++ rest) = rest := by
  induction m with
  | zero =>
    simp only [List.replicate, List.nil_append]
    cases rest with
    | nil => rfl
    | cons c r =>
      have hc : c ≠ ']' := fun hc => h (by simp [hc])
      simp [dropCloses, hc]
  | succ k ih =>
    simp only [List.replicate, List.cons_append, dropCloses, if_pos rfl]
    exact ih

theorem tokenizeLoop_fuel_eq : ∀ (f1 : Nat) (s : List Char) (f2 : Nat)
    (base : List Char) (toks : List String), s.length < f1 → s.length < f2 →
    tokenizeLoop f1 s base toks = tokenizeLoop f2 s base toks := by
  intro f1
  induction f1 with
  | zero => intro s f2 base toks h1; omega
  | succ f1 ih =>
    intro s f2 base toks h1 h2
    cases f2 with
    | zero => omega
    | succ f2 =>
      cases s with
      | nil => simp [tokenizeLoop]
      | cons c rest =>
        simp only [List.length_cons] at h1 h2
        by_cases hbr : c = '['
        · subst hbr
          simp only [tokenizeLoop, if_pos rfl]
          cases hfc : findClose rest with
          | none => exact ih rest f2 _ _ (by omega) (by omega)
          | some pr =>
            have hl : pr.2.length < rest.length := findClose_length (by rw [hfc])
            have hd : (dropCloses pr.2).length ≤ pr.2.length := dropCloses_length pr.2
            exact ih (dropCloses pr.2) f2 _ _ (by omega) (by omega)
        · simp only [tokenizeLoop, if_neg hbr]
          exact ih rest f2 _ _ (by omega) (by omega)

theorem tokenizeLoop_no_close : ∀ (s : List Char) (fuel : Nat) (base : List Char)
    (toks : List String), ']' ∉ s → s.length < fuel →
    tokenizeLoop fuel s base toks
      = (base ++ s.map (fun c => if c = '[' then '_' else c), toks) := by
  intro s
  induction s with
  | nil =>
    intro fuel base toks h hf
    cases fuel with
    | zero => omega
    | succ f => simp [tokenizeLoop]
  | cons c rest ih =>
    intro fuel base toks h hf
    cases fuel with
    | zero => simp at hf
    | succ f =>
      rw [List.mem_cons] at h
      push_neg at h
      simp only [List.length_cons] at hf
      by_cases hbr : c = '['
      · subst hbr
        simp only [tokenizeLoop, if_pos rfl, findClose_eq_none h.2]
        rw [ih f (base ++ ['_']) toks h.2 (by omega)]
        simp
      · simp only [tokenizeLoop, if_neg hbr]
        rw [ih f (base ++ [c]) toks h.2 (by omega)]
        simp [hbr]

/-! Lenient parsing never fails; a strict decode failure aborts the parse. -/

theorem applyPair_lenient (root : GoMap) (raw : String) :
    ∃ t, applyPair root raw false = .ok t := by
  by_cases h : raw = ""
  · exact ⟨root, by simp [applyPair, h]⟩
  · exact ⟨applyDecoded root (String.mk (lenientChars (splitPair raw).1.data))
      (String.mk (lenientChars (splitPair raw).2.data)), by simp [applyPair, h, decode]⟩

theorem runPairs_lenient : ∀ (pairs : List String) (root : GoMap),
    ∃ t, runPairs root pairs false = .ok t := by
  intro pairs
  induction pairs with
  | nil => intro root; exact ⟨root, rfl⟩
  | cons p rest ih =>
    intro root
    obtain ⟨r, hr⟩ := applyPair_lenient root p
    obtain ⟨t, ht⟩ := ih r
    exact ⟨t, by simp [runPairs, hr, ht]⟩

theorem applyPair_strict_err (root : GoMap) (raw : String) (hne : raw ≠ "")
    (hfail : decode (splitPair raw).1 true = none ∨ decode (splitPair raw).2 true = none) :
    ∃ e, applyPair root raw true = .error e := by
  simp only [applyPair, if_neg hne]
  rcases hfail with hk | hv
  · exact ⟨.keyError, by rw [hk]⟩
  · cases hdk : decode (splitPair raw).1 true with
    | none => exact ⟨.keyError, rfl⟩
    | some dk => exact ⟨.valueError, by rw [hv]⟩

theorem runPairs_strict_err : ∀ (pairs : List String) (root : GoMap) (raw : String),
    raw ∈ pairs → raw ≠ "" →
    (decode (splitPair raw).1 true = none ∨ decode (splitPair raw).2 true = none) →
    ∃ e, runPairs root pairs true = .error e := by
  intro pairs
  induction pairs with
  | nil => intro root raw h; simp at h
  | cons p rest ih =>
    intro root raw hmem hne hfail
    cases hap : applyPair root p true with
    | error e => exact ⟨e, by simp [runPairs, hap]⟩
    | ok root' =>
      rcases List.mem_cons.mp hmem with heq | hmem'
      · subst heq
        obtain ⟨e, he⟩ := applyPair_strict_err root raw hne hfail
        rw [he] at hap
        cases hap
      · obtain ⟨e, he⟩ := ih root' raw hmem' hne hfail
        exact ⟨e, by simp [runPairs, hap, he]⟩

/-- C2: when tree[base] holds a scalar and the first token is empty or
numeric, insert replaces it with the one-element sequence seeded with that
scalar and walks the tokens, first token still unconsumed, against the new
sequence; parsing "a=1&a[]=2&a[]=3" yields a: ["1","2","3"]. -/
theorem claim_C2 (root : GoMap) (base s value first : String) (rest : List String)
    (h : mapGet root base = some (.vstr s))
    (hf : first = "" ∨ isNumeric first = true) :
    insert root base (first :: rest) value
      = mapSet root base (walk value (first :: rest) (.vslice [.vstr s])) ∧
    ParseStr "a=1&a[]=2&a[]=3" = .ok [("a", .vslice [.vstr "1", .vstr "2", .vstr "3"])] := by
  constructor
  · have hc : (first = "" || isNumeric first) = true := by
      rcases hf with h1 | h1 <;> simp [h1]
    simp [insert, h, hc]
  · rfl

/-- Witness for C2: a="1" promoted to a sequence by an append token. -/
theorem claim_C2_witness :
    insert [("a", GoVal.vstr "1")] "a" [""] "2"
      = mapSet [("a", GoVal.vstr "1")] "a" (walk "2" [""] (.vslice [.vstr "1"])) :=
  (claim_C2 [("a", GoVal.vstr "1")] "a" "1" "2" "" [] rfl (Or.inl rfl)).1

/-- C3 counterexample: converting the sequence ["x", Hole, "y"] to a mapping
does produce an entry under key "1" (holding the hole marker), contradicting
the claim that a hole at index 1 produces no entry under key "1". -/
theorem claim_C3_counterexample :
    ¬ mapGet (ensureMap (.vslice [.vstr "x", .vnil, .vstr "y"])) "1" = none := by
  intro h
  have h' : some GoVal.vnil = (none : Option GoVal) := h
  cases h'

/-- C3 amended: when a Sequence is converted to a Mapping, every slot at
index i, present element or hole alike, becomes the entry under the string
key "i" (the hole marker is carried over, not dropped). -/
theorem claim_C3 (xs : List GoVal) (i : Nat) :
    mapGet (ensureMap (.vslice xs)) (itoa i) = xs[i]? := by
  have h := mapGet_enumMap xs 0 i
  simpa [ensureMap] using h

/-- C4: parsing "a[]=x&a[2]=y&a[b]=z" converts the sequence built by the
first two pairs into a mapping on the associative token "b", carrying the
hole at index 1 over as the entry "1" holding the hole marker. -/
theorem claim_C4 :
    ParseStr "a[]=x&a[2]=y&a[b]=z"
      = .ok [("a", .vmap [("0", .vstr "x"), ("1", .vnil), ("2", .vstr "y"), ("b", .vstr "z")])] := rfl

/-- C5: a pair whose key tokenizes without brackets assigns the scalar at
the base unconditionally, overwriting any node (container or scalar); map
assignment is last-write-wins; "a=b&a=c" gives a:"c" and "a[]=x&a=Y" gives
a:"Y". -/
theorem claim_C5 (root : GoMap) (dk dv b : String)
    (h1 : goTrim dk ≠ "") (h2 : tokenizeKey (goTrim dk) = [b]) :
    applyDecoded root dk dv = mapSet root b (.vstr (goTrim dv)) ∧
    (∀ (m : GoMap) (k : String) (v : GoVal), mapGet (mapSet m k v) k = some v) ∧
    (∀ (m : GoMap) (k : String) (v1 v2 : GoVal),
        mapSet (mapSet m k v1) k v2 = mapSet m k v2) ∧
    ParseStr "a=b&a=c" = .ok [("a", .vstr "c")] ∧
    ParseStr "a[]=x&a=Y" = .ok [("a", .vstr "Y")] := by
  refine ⟨?_, mapGet_mapSet_self, mapSet_mapSet_self, rfl, rfl⟩
  simp [applyDecoded, h1, h2]

/-- Witness for C5: plain assignment through the decoded-pair step. -/
theorem claim_C5_witness :
    applyDecoded [("a", GoVal.vslice [GoVal.vstr "x"])] "a" "Y"
      = mapSet [("a", GoVal.vslice [GoVal.vstr "x"])] "a" (GoVal.vstr (goTrim "Y")) :=
  (claim_C5 [("a", GoVal.vslice [GoVal.vstr "x"])] "a" "Y" "a" (by decide) rfl).1

/-- C6: an unmatched open bracket is not emitted as a token: a single
underscore joins the base and scanning resumes one character past the
bracket, with the remainder (which holds no close bracket) scanned as base
text; parsing "p[q=1" yields p_q:"1". -/
theorem claim_C6 (rest base : List Char) (toks : List String) (fuel : Nat)
    (h : ']' ∉ rest) (hf : rest.length + 1 < fuel) :
    tokenizeLoop fuel ('[' :: rest) base toks
      = (base ++ '_' :: rest.map (fun c => if c = '[' then '_' else c), toks) ∧
    tokenizeKey "p[q" = ["p_q"] ∧
    ParseStr "p[q=1" = .ok [("p_q", .vstr "1")] := by
  refine ⟨?_, rfl, rfl⟩
  cases fuel with
  | zero => omega
  | succ f =>
    simp only [tokenizeLoop, if_pos rfl, findClose_eq_none h]
    rw [tokenizeLoop_no_close rest f (base ++ ['_']) toks h (by omega)]
    simp

/-- Witness for C6 on the key fragment "[q" with base "p" scanned. -/
theorem claim_C6_witness :
    tokenizeLoop 4 ('[' :: ['q']) ['p'] []
      = (['p'] ++ '_' :: ['q'].map (fun c => if c = '[' then '_' else c), []) :=
  (claim_C6 ['q'] ['p'] [] 4 (by decide) (by decide)).1

/-- C7: a close bracket is discarded exactly in the run immediately after a
matched pair, and a close bracket met outside a bracket search is kept as a
literal base character; "a[b]]=1" yields a:{b:"1"} while "b]=1" yields
the base key "b]". -/
theorem claim_C7 (tk rest : List Char) (m fuel : Nat) (base : List Char) (toks : List String)
    (h1 : ']' ∉ tk) (h2 : rest.head? ≠ some ']')
    (hf : ('[' :: (tk ++ ']' :: (List.replicate m ']' ++ rest))).length < fuel) :
    tokenizeLoop fuel ('[' :: (tk ++ ']' :: (List.replicate m ']' ++ rest))) base toks
      = tokenizeLoop (rest.length + 1) rest base (toks ++ [String.mk tk]) ∧
    (∀ (fuel' : Nat) (rest' base' : List Char) (toks' : List String),
        rest'.length + 1 < fuel' →
        tokenizeLoop fuel' (']' :: rest') base' toks'
          = tokenizeLoop (rest'.length + 1) rest' (base' ++ [']']) toks') ∧
    tokenizeKey "a[b]]" = ["a", "b"] ∧
    tokenizeKey "b]" = ["b]"] ∧
    ParseStr "a[b]]=1" = .ok [("a", .vmap [("b", .vstr "1")])] ∧
    ParseStr "b]=1" = .ok [("b]", .vstr "1")] := by
  refine ⟨?_, ?_, rfl, rfl, rfl, rfl⟩
  · cases fuel with
    | zero => simp at hf
    | succ f =>
      simp only [List.length_cons, List.length_append, List.length_replicate] at hf
      simp only [tokenizeLoop, if_pos rfl, findClose_append _ h1,
        dropCloses_replicate_append m h2]
      exact tokenizeLoop_fuel_eq f rest (rest.length + 1) _ _ (by omega) (by omega)
  · intro fuel' rest' base' toks' hf'
    cases fuel' with
    | zero => omega
    | succ f' =>
      have hbr : ¬ (']' : Char) = '[' := by decide
      simp only [tokenizeLoop, if_neg hbr]
      exact tokenizeLoop_fuel_eq f' rest' (rest'.length + 1) _ _ (by omega) (by omega)

/-- Witness for C7: token "b" followed by one surplus close bracket. -/
theorem claim_C7_witness :
    tokenizeLoop 10 ('[' :: (['b'] ++ ']' :: (List.replicate 1 ']' ++ []))) ['a'] []
      = tokenizeLoop (List.length ([] : List Char) + 1) [] ['a'] ([] ++ [String.mk ['b']]) :=
  (claim_C7 ['b'] [] 1 10 ['a'] [] (by decide) (by decide) (by decide)).1

/-- C8: with StrictDecode a decode failure in any pair aborts the whole
parse with a single error naming key or value (no partial tree is ever
produced); without it decoding never fails and malformed escapes stay
literal, so "bad=%ZZ" yields bad:"%ZZ". -/
theorem claim_C8 :
    (∀ (q : String) (seps : List Char), ∃ t, ParseStrWithOptions q ⟨seps, false⟩ = .ok t) ∧
    (∀ (pairs : List String) (root : GoMap) (raw : String),
        raw ∈ pairs → raw ≠ "" →
        (decode (splitPair raw).1 true = none ∨ decode (splitPair raw).2 true = none) →
        ∃ e, runPairs root pairs true = .error e) ∧
    ParseStr "bad=%ZZ" = .ok [("bad", .vstr "%ZZ")] ∧
    ParseStrWithOptions "bad=%ZZ" ⟨['&', ';'], true⟩ = .error .valueError ∧
    ParseStrWithOptions "%ZZ=1" ⟨['&', ';'], true⟩ = .error .keyError := by
  refine ⟨?_, runPairs_strict_err, rfl, rfl, rfl⟩
  intro q seps
  exact runPairs_lenient _ _

/-- Witness for C8: one failing pair makes the strict pair loop error. -/
theorem claim_C8_witness : ∃ e, runPairs [] ["a=%ZZ"] true = .error e :=
  claim_C8.2.1 ["a=%ZZ"] [] "a=%ZZ" (List.mem_singleton.mpr rfl) (by decide) (Or.inr rfl)

set_option maxRecDepth 100000

/-- C9: setting a sequence element at any numeric index always succeeds:
the sequence grows with holes until its length exceeds the index, earlier
elements are preserved, and the element lands at the index; parsing
"a[1000]=x" yields a sequence of length 1001 ending in "x". -/
theorem claim_C9 (sl : List GoVal) (n : Nat) (v : GoVal) :
    (growSlice sl n).length = max sl.length (n + 1) ∧
    (∀ i, i < sl.length → (growSlice sl n)[i]? = sl[i]?) ∧
    (∀ i, sl.length ≤ i → i ≤ n → (growSlice sl n)[i]? = some .vnil) ∧
    ((growSlice sl n).set n v)[n]? = some v ∧
    ParseStr "a[1000]=x"
      = .ok [("a", .vslice (List.replicate 1000 .vnil ++ [.vstr "x"]))] := by
  refine ⟨?_, ?_, ?_, ?_, rfl⟩
  · simp only [growSlice, List.length_append, List.length_replicate]
    omega
  · intro i hi
    rw [growSlice, List.getElem?_append_left hi]
  · intro i hg hle
    rw [growSlice, List.getElem?_append_right hg, List.getElem?_replicate]
    rw [if_pos (by omega)]
  · have hlen : n < ((growSlice sl n).set n v).length := by
      simp only [List.length_set, growSlice, List.length_append, List.length_replicate]
      omega
    rw [List.getElem?_eq_getElem hlen]
    congr 1
    apply List.getElem_set_self

/-- Witness for C9: growing a one-element sequence to index 3. -/
theorem claim_C9_witness : (growSlice [GoVal.vstr "x"] 3)[2]? = some GoVal.vnil :=
  (claim_C9 [GoVal.vstr "x"] 3 GoVal.vnil).2.2.1 2 (by decide) (by decide)

/-- C10: the key is decoded before tokenizing, so encoded brackets are
structural: "a[%5D]" decodes to "a[]]", which tokenizes to base "a" and
the empty append token (not token "%5D"), and ParseStr "a[%5D]=x" yields
a: ["x"]. -/
theorem claim_C10 :
    decode "a[%5D]" false = some "a[]]" ∧
    tokenizeKey "a[]]" = ["a", ""] ∧
    tokenizeKey "a[%5D]" = ["a", "%5D"] ∧
    ParseStr "a[%5D]=x" = .ok [("a", .vslice [.vstr "x"])] :=
  ⟨rfl, rfl, rfl, rfl⟩

end ParsePhp
